import Mathlib

/-!
# Verification of the silence-removal engine (`src/audio_processor.py`)

Shallow embedding of the silence-detection-and-reconstruction engine of the
repository, together with theorems settling the specification's claims.

Modelling conventions:
* A chunk of the sample buffer is abstracted to the two values the detector
  loop (`detect_silence`, lines 95-121) reads from it: the smoothed loudness
  converted to dBFS (`db`, a `WithBot ℚ` where `⊥` stands for `float('-inf')`,
  the value assigned when `rms == 0`), and the spectral voice flag
  (`has_voice`).  The upstream computations producing these values (RMS,
  Savitzky-Golay smoothing, FFT classification) are embedded separately where
  a claim is about them.
* Times are in milliseconds, as in the source; `i * 100` is the time of chunk
  `i`.  Python's `max(0, a - b)` on naturals is `a - b` (truncated
  subtraction) and `min(a, b)` is `Nat.min`.
* An `AudioSegment` is modelled at millisecond granularity as a list of
  rational amplitudes, one entry per millisecond, so `len(audio_segment)`
  (pydub: length in ms) is `List.length`.
-/

namespace AudioProc

/-- The two per-chunk values consumed by the detector loop: the smoothed
loudness in dBFS (`⊥` models `float('-inf')` from the `rms == 0` branch,
lines 96-99) and the spectral voice flag (line 104). -/
structure Chunk where
  db : WithBot ℚ
  voice : Bool
deriving DecidableEq

/-- The mutable state of the detector loop (lines 91-93):
`silence_ranges`, `is_silence`, `silence_start`. -/
structure DetectState where
  ranges : List (ℕ × ℕ)
  is_silence : Bool
  silence_start : ℕ
deriving DecidableEq

/-- Initial detector state (lines 91-93): empty range list, not in silence,
`silence_start = 0`. -/
def initState : DetectState := ⟨[], false, 0⟩

/-- One iteration of the detector loop (lines 110-120) on chunk `i`.
`last` is `i == len(rms_values) - 1`; `thr` is `threshold_db`, `minLen` is
`min_silence_len`, `cf` is `crossfade_len`, `lenMs` is `len(audio_segment)`.

Mirrors the source:
```
if db < self.threshold_db and not is_silence and not has_voice:
    silence_start = i * 100
    is_silence = True
elif (db >= self.threshold_db or i == len(rms_values) - 1 or has_voice) and is_silence:
    silence_end = i * 100
    if silence_end - silence_start >= self.min_silence_len:
        silence_start = max(0, silence_start - self.crossfade_len)
        silence_end = min(len(audio_segment), silence_end + self.crossfade_len)
        silence_ranges.append((silence_start, silence_end))
    is_silence = False
```
The length test `silence_end - silence_start >= min_silence_len` is taken
over `ℤ`, as Python's subtraction is. -/
def detectStep (thr : ℚ) (minLen cf lenMs : ℕ) (last : Bool) (i : ℕ)
    (c : Chunk) (st : DetectState) : DetectState :=
  if c.db < (thr : WithBot ℚ) ∧ st.is_silence = false ∧ c.voice = false then
    { st with silence_start := i * 100, is_silence := true }
  else if ((thr : WithBot ℚ) ≤ c.db ∨ last = true ∨ c.voice = true) ∧
      st.is_silence = true then
    if (minLen : ℤ) ≤ (i * 100 : ℕ) - (st.silence_start : ℤ) then
      { st with
          ranges := st.ranges ++ [(st.silence_start - cf, Nat.min lenMs (i * 100 + cf))],
          is_silence := false }
    else
      { st with is_silence := false }
  else st

/-- The detector loop over the remaining chunks, starting at index `i`.
The chunk being processed is the last one exactly when the remainder of the
list is empty, matching `i == len(rms_values) - 1` in the source. -/
def detectGo (thr : ℚ) (minLen cf lenMs : ℕ) :
    List Chunk → ℕ → DetectState → DetectState
  | [], _, st => st
  | c :: cs, i, st =>
      detectGo thr minLen cf lenMs cs (i + 1)
        (detectStep thr minLen cf lenMs cs.isEmpty i c st)

/-- `detect_silence` from the chunk classification onwards (lines 91-122):
returns the list of margin-expanded silence ranges. -/
def detectSilence (thr : ℚ) (minLen cf lenMs : ℕ) (chunks : List Chunk) :
    List (ℕ × ℕ) :=
  (detectGo thr minLen cf lenMs chunks 0 initState).ranges

/-- Total removed duration of a range list: the sum of the lengths
`end - start` of its ranges (§8 "Threshold monotonicity" metric). -/
def removedDuration (rs : List (ℕ × ℕ)) : ℕ :=
  (rs.map (fun r => r.2 - r.1)).sum

/-- A chunk that is loud under every threshold used below (`db = 0`). -/
def loudChunk : Chunk := ⟨(0 : ℚ), false⟩

/-- A chunk with `rms == 0`, hence `db = -inf` (line 97), and no voice. -/
def silentChunk : Chunk := ⟨⊥, false⟩

/-- Two half-open millisecond intervals intersect. -/
def overlaps (a b : ℕ × ℕ) : Prop := max a.1 b.1 < min a.2 b.2

/-- The end times of a range list are nondecreasing (true of every list
`detect_silence` produces). -/
def sortedEnds (rs : List (ℕ × ℕ)) : Prop :=
  rs.Pairwise (fun a b => a.2 ≤ b.2)

instance (a b : ℕ × ℕ) : Decidable (overlaps a b) := by
  unfold overlaps; infer_instance

instance (rs : List (ℕ × ℕ)) : Decidable (sortedEnds rs) := by
  unfold sortedEnds; infer_instance

/-- The kept-range sweep of `remove_silence` (lines 135-144).  Note the
cursor update is `current_pos = end`, not `max(current_pos, end)`:
```
for start, end in silence_ranges:
    if start > current_pos:
        kept_ranges.append((current_pos, start))
    current_pos = end
```
Returns the kept ranges emitted in the loop and the final cursor. -/
def keptGo : List (ℕ × ℕ) → ℕ → List (ℕ × ℕ) × ℕ
  | [], cur => ([], cur)
  | (s, e) :: rs, cur =>
      let emitted := if cur < s then [(cur, s)] else []
      let rest := keptGo rs e
      (emitted ++ rest.1, rest.2)

/-- The complete kept-range list (lines 135-144), including the final
`if current_pos < len(audio_segment)` emission. -/
def keptRanges (lenMs : ℕ) (rs : List (ℕ × ℕ)) : List (ℕ × ℕ) :=
  (keptGo rs 0).1 ++ (if (keptGo rs 0).2 < lenMs then [((keptGo rs 0).2, lenMs)] else [])

/-- An `AudioSegment` at millisecond granularity: one rational amplitude per
millisecond, so pydub's `len` (in ms) is `List.length` and `audio[s:e]` is a
sublist. -/
abbrev Seg := List ℚ

/-- pydub slicing `audio_segment[start:end]` in milliseconds (Python slice
semantics: clamped, empty when `start ≥ end`). -/
def sliceMs (audio : Seg) (s e : ℕ) : Seg := (audio.drop s).take (e - s)

/-- Modelled from pydub `AudioSegment.fade_in(duration)`: amplitude ramped
up linearly over the first `d` milliseconds; length-preserving. -/
def fadeIn (d : ℕ) (seg : Seg) : Seg :=
  seg.mapIdx (fun i x => if i < d then x * ((i : ℚ) / (d : ℚ)) else x)

/-- Modelled from pydub `AudioSegment.fade_out(duration)`: amplitude ramped
down linearly over the last `d` milliseconds; length-preserving. -/
def fadeOut (d : ℕ) (seg : Seg) : Seg :=
  seg.mapIdx (fun i x =>
    if seg.length ≤ i + d then x * (((seg.length - 1 - i : ℕ) : ℚ) / (d : ℚ)) else x)

/-- Linear cross-weighting of the overlap window of a crossfade. -/
def crossfadeMix (d : ℕ) (xs ys : Seg) : Seg :=
  (xs.zip ys).mapIdx (fun i p =>
    (1 - (i : ℚ) / (d : ℚ)) * p.1 + ((i : ℚ) / (d : ℚ)) * p.2)

/-- Modelled from pydub `AudioSegment.append(seg, crossfade)`: with
`crossfade == 0` a plain concatenation; otherwise raises `ValueError`
("Crossfade is longer than the original/appended audio segment") when the
crossfade exceeds the length of either operand — modelled as `none` — and
otherwise blends the tail of the first with the head of the second, so the
result is `len(a) + len(b) - crossfade` long. -/
def appendCrossfade (a b : Seg) (cf : ℕ) : Option Seg :=
  if cf = 0 then some (a ++ b)
  else if a.length < cf ∨ b.length < cf then none
  else some (a.take (a.length - cf) ++
    crossfadeMix cf (a.drop (a.length - cf)) (b.take cf) ++ b.drop cf)

/-- The splicing loop of `remove_silence` (lines 147-159): slice each kept
range, fade all but the first segment when long enough, and join with a
crossfade append (which can raise). -/
def spliceGo (cf : ℕ) (audio : Seg) : List (ℕ × ℕ) → ℕ → Seg → Option Seg
  | [], _, result => some result
  | (s, e) :: ks, i, result =>
      let seg0 := sliceMs audio s e
      let seg := if 0 < i ∧ cf * 2 < seg0.length then fadeOut cf (fadeIn cf seg0) else seg0
      if 0 < result.length then
        match appendCrossfade result seg cf with
        | none => none
        | some r => spliceGo cf audio ks (i + 1) r
      else spliceGo cf audio ks (i + 1) seg

/-- `remove_silence` (lines 124-161): identity on an empty range list
(line 131-132), otherwise sweep + splice; `none` models an uncaught
`ValueError` from a crossfade append. -/
def removeSilence (cf : ℕ) (audio : Seg) (rs : List (ℕ × ℕ)) : Option Seg :=
  if rs = [] then some audio
  else spliceGo cf audio (keptRanges audio.length rs) 0 []

/-- One file of a batch: its name and the outcome of `process_file` on it
(the per-file pipeline, lines 163-188, abstracted to success or an
exception message). -/
structure FileJob where
  name : String
  outcome : Except String Unit

/-- The extension filter of `process_directory` (lines 202-203). -/
def audioExtensions : List String := [".mp3", ".wav", ".m4a", ".flac"]

/-- ASCII lowercasing of one character, as `str.lower()` does on ASCII
file names. -/
def lowerChar (c : Char) : Char :=
  if 'A' ≤ c ∧ c ≤ 'Z' then Char.ofNat (c.toNat + 32) else c

/-- `f.lower().endswith(('.mp3', '.wav', '.m4a', '.flac'))`, at character
level. -/
def isAudioName (s : String) : Bool :=
  audioExtensions.any (fun e => e.data.isSuffixOf (s.data.map lowerChar))

/-- The batch loop of `process_directory` (lines 207-210).  There is no
`try`/`except` around `self.process_file(...)`, so an exception raised while
processing one file leaves the loop and propagates to the caller.  Returns
the names of the files on which `process_file` was invoked, in order, and
the propagated exception, if any. -/
def batchRun : List FileJob → List String × Option String
  | [] => ([], none)
  | j :: js =>
      match j.outcome with
      | .ok _ => ((batchRun js).1.cons j.name, (batchRun js).2)
      | .error e => ([j.name], some e)

/-- `process_directory` (lines 190-210) after the directory listing:
filter to audio extensions, then run the batch loop. -/
def processDirectory (files : List FileJob) : List String × Option String :=
  batchRun (files.filter (fun j => isAudioName j.name))

/-- `np.fft.fftfreq(n, 1/sample_rate)` (line 47): bin `k` has frequency
`k * rate / n` for `k ≤ (n-1)/2` and `(k - n) * rate / n` (negative)
otherwise. -/
def fftfreq (n : ℕ) (rate : ℚ) : List ℚ :=
  (List.range n).map (fun k =>
    if k ≤ (n - 1) / 2 then (k : ℚ) * rate / n else ((k : ℚ) - n) * rate / n)

/-- `voice_energy` (lines 48-51): sum of the magnitudes at bins whose
frequency lies in `[85, 255]` Hz. -/
def voiceEnergy (mags bins : List ℚ) : ℚ :=
  (((mags.zip bins).filter (fun p => decide (85 ≤ p.2 ∧ p.2 ≤ 255))).map Prod.fst).sum

/-- `get_frequency_features` (lines 35-55), with the FFT magnitude spectrum
`np.abs(fft(samples))` abstracted to a list of rationals (one magnitude per
bin; `len(samples)` bins).  The decision is
`(voice_energy / total_energy) > 0.1 if total_energy > 0 else False`. -/
def getFrequencyFeatures (mags : List ℚ) (rate : ℚ) : Bool :=
  let bins := fftfreq mags.length rate
  let voice := voiceEnergy mags bins
  let total := mags.sum
  if 0 < total then decide (1 / 10 < voice / total) else false

/-- Row `p` of the hat matrix of the degree-2 least-squares fit on a 5-point
window: the coefficients producing the fitted value at window position `p`.
These are the Savitzky-Golay smoothing weights of
`scipy.signal.savgol_filter(window_length=5, polyorder=2)`. -/
def savgolRow : ℕ → List ℚ
  | 0 => [31/35, 9/35, -3/35, -5/35, 3/35]
  | 1 => [9/35, 13/35, 12/35, 6/35, -5/35]
  | 2 => [-3/35, 12/35, 17/35, 12/35, -3/35]
  | 3 => [-5/35, 6/35, 12/35, 13/35, 9/35]
  | _ => [3/35, -5/35, -3/35, 9/35, 31/35]

/-- Dot product of two coefficient/value lists. -/
def dot (xs ys : List ℚ) : ℚ := ((xs.zip ys).map (fun p => p.1 * p.2)).sum

/-- `scipy.signal.savgol_filter(y, 5, 2)` with the default `mode='interp'`:
the central window convolution where the window fits, and the values of a
degree-2 polynomial fitted to the first (resp. last) window at the two
positions on each edge.  Meaningful for `len y ≥ 5`; `detect_silence` only
calls it for `len y > 5`. -/
def savgolFilter52 (y : List ℚ) : List ℚ :=
  (List.range y.length).map (fun k =>
    if k ≤ 1 then dot (savgolRow k) (y.take 5)
    else if y.length ≤ k + 2 then dot (savgolRow (k + 5 - y.length)) (y.drop (y.length - 5))
    else dot (savgolRow 2) ((y.drop (k - 2)).take 5))

/-- `smooth_rms_values` (lines 57-64): `signal.savgol_filter(rms_values, 5, 2)`. -/
def smoothRmsValues (y : List ℚ) : List ℚ := savgolFilter52 y

/-- The smoothing guard in `detect_silence` (lines 86-88):
`if len(rms_values) > 5: rms_values = self.smooth_rms_values(rms_values)`. -/
def smoothStep (y : List ℚ) : List ℚ :=
  if 5 < y.length then smoothRmsValues y else y

/-- A range is the margin-expanded image of a candidate `[s, e)` whose
pre-margin length `e - s` is at least `minLen` (lines 115-119). -/
def rangeFromCandidate (minLen cf lenMs : ℕ) (r : ℕ × ℕ) : Prop :=
  ∃ s e : ℕ, s ≤ e ∧ (minLen : ℤ) ≤ (e : ℤ) - (s : ℤ) ∧
    r = (s - cf, Nat.min lenMs (e + cf))

/-- A voice-free chunk with the given dB loudness. -/
def dbChunk (q : ℚ) : Chunk := ⟨(q : WithBot ℚ), false⟩

/-- Coupling invariant between two detector runs over the same chunks at
thresholds `thr1 ≤ thr2`, after both have processed the first `i` chunks:
`st1` is the lower-threshold state, `st2` the higher-threshold one.  The
low-threshold machine is in silence only when the high-threshold machine
is, the high one opened no later, and the removed duration accumulated by
the low machine never exceeds that of the high machine plus the pending
advantage of the high machine's open candidate. -/
def MonoInv (minLen cf _lenMs i : ℕ) (st1 st2 : DetectState) : Prop :=
  (st1.is_silence = true → st2.is_silence = true) ∧
  (st1.is_silence = true → st1.silence_start ≤ i * 100) ∧
  (st2.is_silence = true → st2.silence_start ≤ i * 100) ∧
  (st1.is_silence = true → st2.silence_start ≤ st1.silence_start) ∧
  (st2.is_silence = false →
    (removedDuration st1.ranges : ℤ) ≤ (removedDuration st2.ranges : ℤ)) ∧
  (st2.is_silence = true → st1.is_silence = false →
    (removedDuration st1.ranges : ℤ) ≤ (removedDuration st2.ranges : ℤ) ∨
      ((minLen : ℤ) ≤ (i * 100 : ℕ) - (st2.silence_start : ℤ) ∧
        (removedDuration st1.ranges : ℤ) ≤ (removedDuration st2.ranges : ℤ)
          + ((i * 100 - cf : ℕ) : ℤ) - ((st2.silence_start - cf : ℕ) : ℤ))) ∧
  (st2.is_silence = true → st1.is_silence = true →
    (removedDuration st1.ranges : ℤ) ≤ (removedDuration st2.ranges : ℤ) ∨
      ((minLen : ℤ) ≤ (st1.silence_start : ℤ) - (st2.silence_start : ℤ) ∧
        (removedDuration st1.ranges : ℤ) ≤ (removedDuration st2.ranges : ℤ)
          + ((st1.silence_start - cf : ℕ) : ℤ)
          - ((st2.silence_start - cf : ℕ) : ℤ)))

/-- Processing a concatenation of range lists composes, threading the
cursor. -/
theorem keptGo_append (xs ys : List (ℕ × ℕ)) (cur : ℕ) :
    keptGo (xs ++ ys) cur =
      ((keptGo xs cur).1 ++ (keptGo ys (keptGo xs cur).2).1,
        (keptGo ys (keptGo xs cur).2).2) := by
  induction xs generalizing cur with
  | nil => simp [keptGo]
  | cons r rs ih =>
      cases r
      simp [keptGo, ih]

/-- If the cursor starts below every end and the ends are nondecreasing, the
final cursor is at least the initial one. -/
theorem keptGo_cursor_le (rs : List (ℕ × ℕ)) (cur : ℕ)
    (hs : sortedEnds rs) (h : ∀ r ∈ rs, cur ≤ r.2) :
    cur ≤ (keptGo rs cur).2 := by
  induction rs generalizing cur with
  | nil => simp [keptGo]
  | cons a rs ih =>
      obtain ⟨s, e⟩ := a
      simp only [keptGo]
      have h1 : cur ≤ e := h (s, e) (by simp)
      have h2 : ∀ x ∈ rs, e ≤ x.2 := fun x hx =>
        (List.pairwise_cons.mp hs).1 x hx
      exact le_trans h1 (ih e ((List.pairwise_cons.mp hs).2) h2)

/-- The final cursor never exceeds an upper bound of the initial cursor and
all the ends. -/
theorem keptGo_cursor_ub (rs : List (ℕ × ℕ)) (cur X : ℕ)
    (hcur : cur ≤ X) (h : ∀ r ∈ rs, r.2 ≤ X) :
    (keptGo rs cur).2 ≤ X := by
  induction rs generalizing cur with
  | nil => simpa [keptGo]
  | cons a rs ih =>
      obtain ⟨s, e⟩ := a
      simp only [keptGo]
      exact ih e (h (s, e) (by simp)) (fun x hx => h x (by simp [hx]))

/-- With nondecreasing ends, every processed range's end is at most the
final cursor. -/
theorem keptGo_ends_le (rs : List (ℕ × ℕ)) (cur : ℕ) (hs : sortedEnds rs) :
    ∀ r ∈ rs, r.2 ≤ (keptGo rs cur).2 := by
  induction rs generalizing cur with
  | nil => simp
  | cons a rs ih =>
      obtain ⟨s, e⟩ := a
      intro r hr
      simp only [keptGo]
      rcases List.mem_cons.mp hr with h | h
      · subst h
        exact keptGo_cursor_le rs e ((List.pairwise_cons.mp hs).2)
          (fun x hx => (List.pairwise_cons.mp hs).1 x hx)
      · exact ih e ((List.pairwise_cons.mp hs).2) r h

/-- With nondecreasing ends and a cursor below every end, every kept range
emitted by the loop starts at or after the initial cursor. -/
theorem keptGo_kept_ge (rs : List (ℕ × ℕ)) (cur : ℕ)
    (hs : sortedEnds rs) (h : ∀ r ∈ rs, cur ≤ r.2) :
    ∀ k ∈ (keptGo rs cur).1, cur ≤ k.1 := by
  induction rs generalizing cur with
  | nil => simp [keptGo]
  | cons a rs ih =>
      obtain ⟨s, e⟩ := a
      intro k hk
      simp only [keptGo, List.mem_append] at hk
      rcases hk with hk | hk
      · split at hk
        · rcases List.mem_singleton.mp hk with rfl
          exact le_refl _
        · simp at hk
      · have h1 : e ≤ k.1 := ih e ((List.pairwise_cons.mp hs).2)
          (fun x hx => (List.pairwise_cons.mp hs).1 x hx) k hk
        exact le_trans (h (s, e) (by simp)) h1

/-- C1, counterexample: the cursor is updated to `end`, not
`max(current_pos, end)`.  On the out-of-order list `[(0,100), (10,20)]`
(track length 200 ms) the cursor moves backward from 100 to 20, and the
final kept range `(20, 200)` overlaps the previously removed silence range
`(0, 100)`. -/
theorem C1_counterexample :
    keptRanges 200 [(0, 100), (10, 20)] = [(20, 200)] ∧
    overlaps (20, 200) (0, 100) ∧
    (keptGo [(0, 100)] 0).2 = 100 ∧
    (keptGo [(0, 100), (10, 20)] 0).2 = 20 := by decide

/-- C1, amended: the sweep sets `current_pos = end`; whenever the silence
ranges' end times are nondecreasing — as they are for every list the
detector produces — the cursor never moves backward, and no kept range
emitted at or after a given point of the sweep overlaps a silence range
processed before that point. -/
theorem C1_sweep_no_overlap (lenMs : ℕ) (rs1 rs2 : List (ℕ × ℕ))
    (hs : sortedEnds (rs1 ++ rs2)) :
    (keptGo rs1 0).2 ≤ (keptGo (rs1 ++ rs2) 0).2 ∧
    keptRanges lenMs (rs1 ++ rs2) =
      (keptGo rs1 0).1 ++
        ((keptGo rs2 (keptGo rs1 0).2).1 ++
          (if (keptGo (rs1 ++ rs2) 0).2 < lenMs then
            [((keptGo (rs1 ++ rs2) 0).2, lenMs)] else [])) ∧
    ∀ k ∈ (keptGo rs2 (keptGo rs1 0).2).1 ++
        (if (keptGo (rs1 ++ rs2) 0).2 < lenMs then
          [((keptGo (rs1 ++ rs2) 0).2, lenMs)] else []),
      ∀ r ∈ rs1, ¬ overlaps k r := by
  obtain ⟨hs1, hs2, hcross⟩ := List.pairwise_append.mp hs
  have h_ends1 : ∀ r ∈ rs1, r.2 ≤ (keptGo rs1 0).2 :=
    keptGo_ends_le rs1 0 hs1
  have h_c1_le : ∀ b ∈ rs2, (keptGo rs1 0).2 ≤ b.2 := fun b hb =>
    keptGo_cursor_ub rs1 0 b.2 (Nat.zero_le _) (fun a ha => hcross a ha b hb)
  have h_app := keptGo_append rs1 rs2 0
  have h_mono : (keptGo rs1 0).2 ≤ (keptGo (rs1 ++ rs2) 0).2 := by
    rw [h_app]
    exact keptGo_cursor_le rs2 _ hs2 h_c1_le
  refine ⟨h_mono, ?_, ?_⟩
  · unfold keptRanges
    rw [h_app]
    simp [List.append_assoc]
  · intro k hk r hr
    have hk1 : (keptGo rs1 0).2 ≤ k.1 := by
      rcases List.mem_append.mp hk with h | h
      · exact keptGo_kept_ge rs2 _ hs2 h_c1_le k h
      · split at h
        · rcases List.mem_singleton.mp h with rfl
          exact h_mono
        · simp at h
    have hr2 : r.2 ≤ (keptGo rs1 0).2 := h_ends1 r hr
    unfold overlaps
    omega

/-- C1, witness for `C1_sweep_no_overlap`: with the well-ordered ranges
`[(0,100), (150,200)]` on a 300 ms track, the kept range `(100, 150)`
emitted after the first silence range does not overlap it. -/
theorem C1_witness : ¬ overlaps (100, 150) (0, 100) :=
  (C1_sweep_no_overlap 300 [(0, 100)] [(150, 200)] (by decide)).2.2
    (100, 150) (by decide) (0, 100) (by decide)

/-- In the batch loop, an exception from `process_file` ends the loop: the
files before the failing one are processed, the failing one is attempted,
the rest are never reached, and the exception propagates. -/
theorem batchRun_error (pre post : List FileJob) (name e : String)
    (hpre : ∀ j ∈ pre, j.outcome = .ok ()) :
    batchRun (pre ++ ⟨name, .error e⟩ :: post) =
      (pre.map (·.name) ++ [name], some e) := by
  induction pre with
  | nil => simp [batchRun]
  | cons j js ih =>
      have hj := hpre j (by simp)
      have ih' := ih (fun x hx => hpre x (by simp [hx]))
      simp [batchRun, hj, ih']

/-- C2, counterexample: the claim states that a per-file failure is caught
at the batch boundary and the batch continues with the remaining files.
The loop in `process_directory` has no `try`/`except`: on a two-file batch
whose first file fails, the exception propagates (`some "boom"`), and
`process_file` is never invoked on the second file. -/
theorem C2_counterexample :
    processDirectory [⟨"a.mp3", .error "boom"⟩, ⟨"b.mp3", .ok ()⟩] =
      (["a.mp3"], some "boom") ∧
    "b.mp3" ∉ (processDirectory [⟨"a.mp3", .error "boom"⟩, ⟨"b.mp3", .ok ()⟩]).1 := by
  constructor
  · decide
  · decide

/-- C2, amended: a failure while processing one file is not caught:
`process_directory` stops at the first failing file, the exception
propagates to the caller, and the remaining files of the batch are not
processed. -/
theorem C2_failure_aborts_batch (pre post : List FileJob) (name e : String)
    (hpre : ∀ j ∈ pre, j.outcome = .ok ())
    (hnames : ∀ j ∈ pre ++ (⟨name, .error e⟩ : FileJob) :: post,
      isAudioName j.name = true) :
    processDirectory (pre ++ ⟨name, .error e⟩ :: post) =
      (pre.map (·.name) ++ [name], some e) := by
  unfold processDirectory
  rw [List.filter_eq_self.mpr (fun j hj => hnames j hj)]
  exact batchRun_error pre post name e hpre

/-- C2, witness for `C2_failure_aborts_batch`: in a three-file batch whose
second file fails, only the first two files are attempted and the error
propagates. -/
theorem C2_witness :
    processDirectory [⟨"a.mp3", .ok ()⟩, ⟨"b.wav", .error "io error"⟩,
        ⟨"c.flac", .ok ()⟩] =
      (["a.mp3", "b.wav"], some "io error") := by
  have h := C2_failure_aborts_batch [⟨"a.mp3", .ok ()⟩] [⟨"c.flac", .ok ()⟩]
    "b.wav" "io error" (by intro j hj; simp at hj; rw [hj])
    (by intro j hj; fin_cases hj <;> decide)
  simpa using h

/-- C3, counterexample: the claim states that no unterminated silence
candidate escapes the detector, "including a candidate whose opening
transition fires on the last chunk itself".  On the two-chunk input
`[loud, silent]` (threshold -20 dB, defaults otherwise) the opening
transition fires on the last chunk, the `elif` branch is therefore not
evaluated, and the loop ends with `is_silence` still `True`: the candidate
is never closed. -/
theorem C3_counterexample :
    (detectGo (-20) 500 50 200 [loudChunk, silentChunk] 0 initState).is_silence
      = true := by decide

/-- C3, amended: when the last chunk is processed, a candidate that is
already open is force-closed and evaluated against the minimum-length rule
(emitted after margin expansion iff `i*100 - silence_start ≥ minLen`); but a
candidate whose opening transition fires on the last chunk itself stays open
and contributes no range. -/
theorem C3_last_chunk_closure (thr : ℚ) (minLen cf lenMs i : ℕ) (c : Chunk)
    (st : DetectState) :
    (st.is_silence = true →
      (detectStep thr minLen cf lenMs true i c st).is_silence = false ∧
      (detectStep thr minLen cf lenMs true i c st).ranges =
        (if (minLen : ℤ) ≤ ((i * 100 : ℕ) : ℤ) - (st.silence_start : ℤ) then
          st.ranges ++ [(st.silence_start - cf, Nat.min lenMs (i * 100 + cf))]
        else st.ranges)) ∧
    (st.is_silence = false →
      (detectStep thr minLen cf lenMs true i c st).ranges = st.ranges) := by
  constructor
  · intro h
    unfold detectStep
    simp only [h]
    split_ifs with h1 h2 h3 h3 <;> simp_all
  · intro h
    unfold detectStep
    simp only [h]
    split_ifs with h1 h2 <;> simp_all

/-- Every range the detector loop ever appends comes from a candidate whose
pre-margin length passed the minimum-length test. -/
theorem detectGo_ranges_sound (thr : ℚ) (minLen cf lenMs : ℕ) :
    ∀ (cs : List Chunk) (i : ℕ) (st : DetectState),
      (∀ r ∈ st.ranges, rangeFromCandidate minLen cf lenMs r) →
      ∀ r ∈ (detectGo thr minLen cf lenMs cs i st).ranges,
        rangeFromCandidate minLen cf lenMs r := by
  intro cs
  induction cs with
  | nil => intro i st h; simpa [detectGo] using h
  | cons c cs ih =>
      intro i st h
      apply ih
      intro r hr
      unfold detectStep at hr
      split_ifs at hr with h1 h2 h3
      · exact h r hr
      · simp only [List.mem_append] at hr
        rcases hr with h' | h'
        · exact h r h'
        · rcases List.mem_singleton.mp h' with rfl
          exact ⟨st.silence_start, i * 100, by omega, h3, rfl⟩
      · exact h r hr
      · exact h r hr

/-- On a state that is not inside a silence candidate, chunks that are not
below the threshold leave the detector state unchanged. -/
theorem detectGo_all_loud (thr : ℚ) (minLen cf lenMs : ℕ) :
    ∀ (cs : List Chunk) (i : ℕ) (rs : List (ℕ × ℕ)) (s : ℕ),
      (∀ c ∈ cs, ¬ (c.db < (thr : WithBot ℚ))) →
      detectGo thr minLen cf lenMs cs i ⟨rs, false, s⟩ = ⟨rs, false, s⟩ := by
  intro cs
  induction cs with
  | nil => intro i rs s _; rfl
  | cons c cs ih =>
      intro i rs s h
      have hc : ¬ (c.db < (thr : WithBot ℚ)) := h c (by simp)
      have hstep : detectStep thr minLen cf lenMs cs.isEmpty i c ⟨rs, false, s⟩
          = ⟨rs, false, s⟩ := by
        unfold detectStep
        split_ifs with h1 h2 <;> simp_all
      rw [detectGo, hstep]
      exact ih (i + 1) rs s (fun x hx => h x (by simp [hx]))

/-- C5: every SilenceRange the detector emits is the margin-expanded image
of a candidate whose pre-margin length is at least `minSilenceLenMs`
(so a shorter candidate is discarded and yields no range); concretely, a
single voice-free silent span of exactly `minSilenceLenMs - 1` ms (400 ms,
`minSilenceLenMs = 401`) surrounded by loud audio yields zero ranges, while
one of exactly `minSilenceLenMs` ms (500 ms, default `minSilenceLenMs =
500`) yields exactly one. -/
theorem C5_min_length_enforced :
    (∀ (thr : ℚ) (minLen cf lenMs : ℕ) (chunks : List Chunk),
      ∀ r ∈ detectSilence thr minLen cf lenMs chunks,
        rangeFromCandidate minLen cf lenMs r) ∧
    detectSilence (-20) 401 50 600
      ([loudChunk] ++ List.replicate 4 silentChunk ++ [loudChunk]) = [] ∧
    detectSilence (-20) 500 50 700
      ([loudChunk] ++ List.replicate 5 silentChunk ++ [loudChunk]) = [(50, 650)] := by
  refine ⟨?_, by decide, by decide⟩
  intro thr minLen cf lenMs chunks
  exact detectGo_ranges_sound thr minLen cf lenMs chunks 0 initState
    (by simp [initState])

/-- C5, witness for `C5_min_length_enforced`: the single range emitted on
the 500 ms scenario comes from a candidate of pre-margin length ≥ 500. -/
theorem C5_witness : rangeFromCandidate 500 50 700 (50, 650) :=
  C5_min_length_enforced.1 (-20) 500 50 700
    ([loudChunk] ++ List.replicate 5 silentChunk ++ [loudChunk]) (50, 650)
    (by decide)

/-- C6: with an empty silence-range list the reconstructor returns the
original buffer unchanged; and on a buffer whose chunks are all at or above
threshold the detector yields zero ranges, so the whole pipeline returns
the input unchanged. -/
theorem C6_identity_on_clean :
    (∀ (cf : ℕ) (audio : Seg), removeSilence cf audio [] = some audio) ∧
    (∀ (thr : ℚ) (minLen cf : ℕ) (audio : Seg) (chunks : List Chunk),
      (∀ c ∈ chunks, ¬ (c.db < (thr : WithBot ℚ))) →
      detectSilence thr minLen cf audio.length chunks = [] ∧
      removeSilence cf audio (detectSilence thr minLen cf audio.length chunks)
        = some audio) := by
  constructor
  · intro cf audio; rfl
  · intro thr minLen cf audio chunks h
    have hdet : detectSilence thr minLen cf audio.length chunks = [] := by
      unfold detectSilence initState
      rw [detectGo_all_loud thr minLen cf audio.length chunks 0 [] 0 h]
    exact ⟨hdet, by rw [hdet]; rfl⟩

/-- C6, witness for `C6_identity_on_clean`: on a three-sample buffer with
two loud chunks, the detector emits nothing and the pipeline is the
identity. -/
theorem C6_witness :
    detectSilence (-20) 500 50 ([1, 2, 3] : Seg).length [loudChunk, loudChunk]
      = [] ∧
    removeSilence 50 ([1, 2, 3] : Seg)
      (detectSilence (-20) 500 50 ([1, 2, 3] : Seg).length
        [loudChunk, loudChunk]) = some [1, 2, 3] :=
  C6_identity_on_clean.2 (-20) 500 50 [1, 2, 3] [loudChunk, loudChunk]
    (by decide)

/-- C7: the spectral voice classifier returns `true` iff the total energy
is positive and the voice-band (85-255 Hz bins of `fftfreq`) share of it
exceeds 0.1; when the total energy is zero it returns `false`, with no
division performed (the embedding is a total function). -/
theorem C7_voice_classifier (mags : List ℚ) (rate : ℚ) :
    (getFrequencyFeatures mags rate = true ↔
      0 < mags.sum ∧
        1 / 10 < voiceEnergy mags (fftfreq mags.length rate) / mags.sum) ∧
    (mags.sum = 0 → getFrequencyFeatures mags rate = false) := by
  constructor
  · by_cases h : 0 < mags.sum
    · simp [getFrequencyFeatures, h]
    · simp [getFrequencyFeatures, h]
  · intro h0
    simp [getFrequencyFeatures, h0]

/-- C7, witness for `C7_voice_classifier`: an empty magnitude spectrum has
zero total energy and classifies as no-voice. -/
theorem C7_witness : getFrequencyFeatures [] 8000 = false :=
  (C7_voice_classifier [] 8000).2 rfl

/-- The Savitzky-Golay smoother returns one value per input sample. -/
theorem savgolFilter52_length (y : List ℚ) :
    (savgolFilter52 y).length = y.length := by
  simp [savgolFilter52]

/-- C8: the smoothing filter is applied to the loudness series only when
its length exceeds the window size 5; a series of length at most 5 passes
through unchanged, and when smoothing is applied the smoothed series has
the same length as the input. -/
theorem C8_smoothing_guard :
    (∀ y : List ℚ, y.length ≤ 5 → smoothStep y = y) ∧
    (∀ y : List ℚ, 5 < y.length →
      smoothStep y = smoothRmsValues y ∧
      (smoothRmsValues y).length = y.length) := by
  constructor
  · intro y h
    unfold smoothStep
    rw [if_neg (by omega)]
  · intro y h
    refine ⟨?_, ?_⟩
    · unfold smoothStep
      rw [if_pos h]
    · unfold smoothRmsValues
      exact savgolFilter52_length y

/-- C8, witness for `C8_smoothing_guard`: a length-5 series passes through
raw; a length-6 series is smoothed to a length-6 series. -/
theorem C8_witness :
    smoothStep [1, 2, 3, 4, 5] = [1, 2, 3, 4, 5] ∧
    (smoothRmsValues [0, 0, 1, 0, 0, 0]).length = 6 := by
  refine ⟨C8_smoothing_guard.1 _ (by norm_num), ?_⟩
  rw [(C8_smoothing_guard.2 [0, 0, 1, 0, 0, 0] (by norm_num)).2]
  rfl

/-- C10: the dB conversion is guarded only by `rms == 0`; smoothing a
nonnegative loudness series can produce a negative value (here `-3/35` from
`[0,0,1,0,0,0]`), which is neither caught by the `rms == 0` guard nor a
valid argument to `log10` — so well-definedness of the dB value indeed
requires every smoothed loudness value to be nonnegative. -/
theorem C10_negative_smoothed_loudness :
    (∀ x ∈ ([0, 0, 1, 0, 0, 0] : List ℚ), 0 ≤ x) ∧
    (smoothStep [0, 0, 1, 0, 0, 0]).head? = some (-3 / 35) ∧
    (-3 / 35 : ℚ) < 0 ∧ ¬ ((-3 / 35 : ℚ) = 0) := by
  refine ⟨by decide, ?_, by norm_num, by norm_num⟩
  norm_num [smoothStep, smoothRmsValues, savgolFilter52, savgolRow, dot,
    List.range_succ]

theorem fadeIn_length (d : ℕ) (seg : Seg) : (fadeIn d seg).length = seg.length := by
  simp [fadeIn]

theorem fadeOut_length (d : ℕ) (seg : Seg) : (fadeOut d seg).length = seg.length := by
  simp [fadeOut]

theorem crossfadeMix_length (d : ℕ) (xs ys : Seg) :
    (crossfadeMix d xs ys).length = min xs.length ys.length := by
  simp [crossfadeMix]

/-- The fade branch of the splicing loop preserves the segment's length. -/
theorem fadeBranch_length (cf i : ℕ) (seg0 : Seg) :
    (if 0 < i ∧ cf * 2 < seg0.length then fadeOut cf (fadeIn cf seg0) else seg0).length
      = seg0.length := by
  split
  · rw [fadeOut_length, fadeIn_length]
  · rfl

/-- A successful crossfade append requires the crossfade to fit in both
operands (unless it is zero) and shortens the concatenation by the
crossfade length. -/
theorem appendCrossfade_some (a b : Seg) (cf : ℕ) (r : Seg)
    (h : appendCrossfade a b cf = some r) :
    (cf = 0 ∨ cf ≤ a.length ∧ cf ≤ b.length) ∧
      r.length = a.length + b.length - cf := by
  by_cases h0 : cf = 0
  · unfold appendCrossfade at h
    rw [if_pos h0] at h
    cases h
    subst h0
    simp
  · by_cases h1 : a.length < cf ∨ b.length < cf
    · unfold appendCrossfade at h
      rw [if_neg h0, if_pos h1] at h
      cases h
    · unfold appendCrossfade at h
      rw [if_neg h0, if_neg h1] at h
      cases h
      push_neg at h1
      refine ⟨Or.inr h1, ?_⟩
      simp only [List.length_append, List.length_take, List.length_drop,
        crossfadeMix_length]
      omega

/-- If the splicing loop succeeds starting from a nonempty accumulated
result, every remaining kept range's segment is at least the crossfade
long. -/
theorem spliceGo_success_ge (cf : ℕ) (audio : Seg) :
    ∀ (ks : List (ℕ × ℕ)) (i : ℕ) (acc out : Seg),
      0 < acc.length →
      spliceGo cf audio ks i acc = some out →
      ∀ k ∈ ks, cf ≤ (sliceMs audio k.1 k.2).length := by
  intro ks
  induction ks with
  | nil => intro i acc out _ _ k hk; simp at hk
  | cons p ks ih =>
      obtain ⟨s, e⟩ := p
      intro i acc out hacc hspl k hk
      simp only [spliceGo] at hspl
      rw [if_pos hacc] at hspl
      cases happ : appendCrossfade acc
          (if 0 < i ∧ cf * 2 < (sliceMs audio s e).length then
            fadeOut cf (fadeIn cf (sliceMs audio s e))
          else sliceMs audio s e) cf with
      | none => rw [happ] at hspl; exact absurd hspl (by simp)
      | some r =>
          rw [happ] at hspl
          have hsome := appendCrossfade_some _ _ _ _ happ
          have hseg := fadeBranch_length cf i (sliceMs audio s e)
          have hcfseg : cf ≤ (sliceMs audio s e).length := by
            rcases hsome.1 with h0 | h0
            · omega
            · rw [hseg] at h0; exact h0.2
          have hr : 0 < r.length := by
            rw [hsome.2, hseg]
            omega
          rcases List.mem_cons.mp hk with rfl | hk'
          · exact hcfseg
          · exact ih (i + 1) r out hr hspl k hk'

/-- The splicing loop over a concatenation is the monadic composition of
the loops over the parts. -/
theorem spliceGo_append (cf : ℕ) (audio : Seg) :
    ∀ (xs ys : List (ℕ × ℕ)) (i : ℕ) (acc : Seg),
      spliceGo cf audio (xs ++ ys) i acc =
        (spliceGo cf audio xs i acc).bind
          (fun r => spliceGo cf audio ys (i + xs.length) r) := by
  intro xs
  induction xs with
  | nil => intro ys i acc; simp [spliceGo]
  | cons p xs ih =>
      obtain ⟨s, e⟩ := p
      intro ys i acc
      simp only [List.cons_append, spliceGo, List.append_eq]
      split
      · cases appendCrossfade acc
            (if 0 < i ∧ cf * 2 < (sliceMs audio s e).length then
              fadeOut cf (fadeIn cf (sliceMs audio s e))
            else sliceMs audio s e) cf with
        | none => simp
        | some r =>
            dsimp only
            rw [ih ys (i + 1) r]
            simp [Nat.add_assoc, Nat.add_comm 1 xs.length]
      · rw [ih ys (i + 1) _]
        simp [Nat.add_assoc, Nat.add_comm 1 xs.length]

/-- C9: `remove_silence` is not total.  Concretely, on a 40 ms buffer with
silence ranges `[(0,10), (20,25)]` and the default 50 ms crossfade the
kept segments are 10 ms and 15 ms long and the crossfade append raises
(modelled `none`).  In general, if any kept segment after a nonempty one is
shorter than the crossfade, `remove_silence` returns no buffer: a buffer is
returned only when every segment involved in a join is at least
`crossfade_len` long. -/
theorem C9_crossfade_partiality :
    removeSilence 50 (List.replicate 40 (1 : ℚ)) [(0, 10), (20, 25)] = none ∧
    (∀ (cf : ℕ) (audio : Seg) (rs ks1 ks2 : List (ℕ × ℕ)) (k k' : ℕ × ℕ),
      rs ≠ [] →
      keptRanges audio.length rs = ks1 ++ k :: ks2 →
      0 < (sliceMs audio k.1 k.2).length →
      k' ∈ ks2 →
      (sliceMs audio k'.1 k'.2).length < cf →
      removeSilence cf audio rs = none) := by
  constructor
  · rfl
  · intro cf audio rs ks1 ks2 k k' hrs hsplit hkpos hk' hshort
    cases hrem : removeSilence cf audio rs with
    | none => rfl
    | some out =>
        exfalso
        unfold removeSilence at hrem
        rw [if_neg hrs, hsplit, spliceGo_append] at hrem
        rcases Option.bind_eq_some.mp hrem with ⟨acc1, hacc1, hstep⟩
        obtain ⟨s, e⟩ := k
        simp only [spliceGo] at hstep
        by_cases hpos : 0 < acc1.length
        · rw [if_pos hpos] at hstep
          cases happ : appendCrossfade acc1
              (if 0 < 0 + ks1.length ∧ cf * 2 < (sliceMs audio s e).length then
                fadeOut cf (fadeIn cf (sliceMs audio s e))
              else sliceMs audio s e) cf with
          | none => rw [happ] at hstep; exact absurd hstep (by simp)
          | some r =>
              rw [happ] at hstep
              have hsome := appendCrossfade_some _ _ _ _ happ
              have hseg := fadeBranch_length cf (0 + ks1.length) (sliceMs audio s e)
              have hr : 0 < r.length := by
                rw [hsome.2, hseg]
                rcases hsome.1 with h0 | h0
                · omega
                · rw [hseg] at h0; omega
              have := spliceGo_success_ge cf audio ks2 _ r out hr hstep k' hk'
              omega
        · rw [if_neg hpos] at hstep
          have hsegpos : 0 < ((if 0 < 0 + ks1.length ∧
              cf * 2 < (sliceMs audio s e).length then
                fadeOut cf (fadeIn cf (sliceMs audio s e))
              else sliceMs audio s e)).length := by
            rw [fadeBranch_length]
            exact hkpos
          have := spliceGo_success_ge cf audio ks2 _ _ out hsegpos hstep k' hk'
          omega

/-- C9, witness for the general part of `C9_crossfade_partiality`: on the
40 ms buffer above, the kept segment `(25, 40)` (15 ms) following the
nonempty kept segment `(10, 20)` is shorter than the 50 ms crossfade, so
`remove_silence` returns no buffer. -/
theorem C9_witness :
    removeSilence 50 (List.replicate 40 (1 : ℚ)) [(0, 10), (20, 25)] = none :=
  C9_crossfade_partiality.2 50 (List.replicate 40 (1 : ℚ)) [(0, 10), (20, 25)]
    [] [(25, 40)] (10, 20) (25, 40) (by simp) (by rfl) (by decide) (by simp)
    (by decide)

theorem removedDuration_append_single (rs : List (ℕ × ℕ)) (a b : ℕ) :
    removedDuration (rs ++ [(a, b)]) = removedDuration rs + (b - a) := by
  simp [removedDuration]

/-- Opening transition: a below-threshold, voice-free chunk seen outside a
candidate opens one at the chunk's start time. -/
theorem detectStep_open (thr : ℚ) (minLen cf lenMs : ℕ) (last : Bool) (i : ℕ)
    (c : Chunk) (st : DetectState)
    (h1 : c.db < (thr : WithBot ℚ)) (h2 : c.voice = false)
    (h3 : st.is_silence = false) :
    detectStep thr minLen cf lenMs last i c st =
      { st with silence_start := i * 100, is_silence := true } := by
  unfold detectStep
  rw [if_pos ⟨h1, h3, h2⟩]

/-- A below-threshold, voice-free, non-final chunk seen inside a candidate
leaves the state unchanged. -/
theorem detectStep_continue (thr : ℚ) (minLen cf lenMs : ℕ) (i : ℕ)
    (c : Chunk) (st : DetectState)
    (h1 : c.db < (thr : WithBot ℚ)) (h2 : c.voice = false)
    (h3 : st.is_silence = true) :
    detectStep thr minLen cf lenMs false i c st = st := by
  unfold detectStep
  have hA : ¬(c.db < (thr : WithBot ℚ) ∧ st.is_silence = false ∧
      c.voice = false) := by
    rintro ⟨-, hb, -⟩
    rw [h3] at hb
    cases hb
  have hB : ¬(((thr : WithBot ℚ) ≤ c.db ∨ (false : Bool) = true ∨
      c.voice = true) ∧ st.is_silence = true) := by
    rintro ⟨hor, -⟩
    rcases hor with h | h | h
    · exact absurd (lt_of_lt_of_le h1 h) (lt_irrefl _)
    · cases h
    · rw [h2] at h; cases h
  rw [if_neg hA, if_neg hB]

/-- Closing transition on a chunk that is not silence-eligible (at or above
threshold, or voiced): an open candidate is closed and emitted iff it meets
the minimum length. -/
theorem detectStep_close_of_notE (thr : ℚ) (minLen cf lenMs : ℕ)
    (last : Bool) (i : ℕ) (c : Chunk) (st : DetectState)
    (hE : ¬(c.db < (thr : WithBot ℚ) ∧ c.voice = false))
    (h3 : st.is_silence = true) :
    detectStep thr minLen cf lenMs last i c st =
      (if (minLen : ℤ) ≤ ((i * 100 : ℕ) : ℤ) - (st.silence_start : ℤ) then
        { st with
            ranges := st.ranges ++
              [(st.silence_start - cf, Nat.min lenMs (i * 100 + cf))],
            is_silence := false }
      else { st with is_silence := false }) := by
  unfold detectStep
  have hA : ¬(c.db < (thr : WithBot ℚ) ∧ st.is_silence = false ∧
      c.voice = false) := by
    rintro ⟨-, hb, -⟩
    rw [h3] at hb
    cases hb
  have hB : ((thr : WithBot ℚ) ≤ c.db ∨ last = true ∨ c.voice = true) ∧
      st.is_silence = true := by
    refine ⟨?_, h3⟩
    rcases not_and_or.mp hE with h | h
    · exact Or.inl (not_lt.mp h)
    · exact Or.inr (Or.inr (by simpa using h))
  rw [if_neg hA, if_pos hB]

/-- Closing transition forced by the last chunk: an open candidate is
always closed there, whatever the chunk's loudness. -/
theorem detectStep_close_of_last (thr : ℚ) (minLen cf lenMs : ℕ) (i : ℕ)
    (c : Chunk) (st : DetectState) (h3 : st.is_silence = true) :
    detectStep thr minLen cf lenMs true i c st =
      (if (minLen : ℤ) ≤ ((i * 100 : ℕ) : ℤ) - (st.silence_start : ℤ) then
        { st with
            ranges := st.ranges ++
              [(st.silence_start - cf, Nat.min lenMs (i * 100 + cf))],
            is_silence := false }
      else { st with is_silence := false }) := by
  unfold detectStep
  have hA : ¬(c.db < (thr : WithBot ℚ) ∧ st.is_silence = false ∧
      c.voice = false) := by
    rintro ⟨-, hb, -⟩
    rw [h3] at hb
    cases hb
  rw [if_neg hA, if_pos ⟨Or.inr (Or.inl rfl), h3⟩]

/-- A non-eligible, non-final chunk seen outside a candidate changes
nothing. -/
theorem detectStep_idle (thr : ℚ) (minLen cf lenMs : ℕ) (last : Bool)
    (i : ℕ) (c : Chunk) (st : DetectState)
    (hE : ¬(c.db < (thr : WithBot ℚ) ∧ c.voice = false))
    (h3 : st.is_silence = false) :
    detectStep thr minLen cf lenMs last i c st = st := by
  unfold detectStep
  have hA : ¬(c.db < (thr : WithBot ℚ) ∧ st.is_silence = false ∧
      c.voice = false) := by
    rintro ⟨ha, -, hb⟩
    exact hE ⟨ha, hb⟩
  have hB : ¬(((thr : WithBot ℚ) ≤ c.db ∨ last = true ∨ c.voice = true) ∧
      st.is_silence = true) := by
    rintro ⟨-, hb⟩
    rw [h3] at hb
    cases hb
  rw [if_neg hA, if_neg hB]

/-- Whatever a chunk does to a state that is outside a candidate, it emits
no range. -/
theorem detectStep_ranges_of_not_silence (thr : ℚ) (minLen cf lenMs : ℕ)
    (last : Bool) (i : ℕ) (c : Chunk) (st : DetectState)
    (h3 : st.is_silence = false) :
    (detectStep thr minLen cf lenMs last i c st).ranges = st.ranges := by
  unfold detectStep
  split_ifs with h1 h2 <;> simp_all

/-- The coupling invariant is preserved by one non-final detector step,
provided the crossfade margin is at most half the 100 ms chunk length and
the track is long enough for the current position. -/
theorem MonoInv_step_false (thr1 thr2 : ℚ) (hthr : thr1 ≤ thr2)
    (minLen cf lenMs i : ℕ) (hcf : cf ≤ 50) (hx : i * 100 ≤ lenMs)
    (c : Chunk) (st1 st2 : DetectState)
    (hinv : MonoInv minLen cf lenMs i st1 st2) :
    MonoInv minLen cf lenMs (i + 1)
      (detectStep thr1 minLen cf lenMs false i c st1)
      (detectStep thr2 minLen cf lenMs false i c st2) := by
  obtain ⟨hc, hp1, hp2, hss, hFF, hFT, hTT⟩ := hinv
  have hmle : Nat.min lenMs (i * 100 + cf) ≤ i * 100 + cf := Nat.min_le_right _ _
  have hmge : i * 100 ≤ Nat.min lenMs (i * 100 + cf) :=
    le_min hx (Nat.le_add_right _ _)
  by_cases hE1 : c.db < (thr1 : WithBot ℚ) ∧ c.voice = false
  · -- chunk silence-eligible under the low threshold, hence under both
    have hE2 : c.db < (thr2 : WithBot ℚ) ∧ c.voice = false :=
      ⟨lt_of_lt_of_le hE1.1 (WithBot.coe_le_coe.mpr hthr), hE1.2⟩
    cases hs1 : st1.is_silence with
    | true =>
        -- both machines continue their open candidates
        have hs2 := hc hs1
        rw [detectStep_continue thr1 minLen cf lenMs i c st1 hE1.1 hE1.2 hs1,
          detectStep_continue thr2 minLen cf lenMs i c st2 hE2.1 hE2.2 hs2]
        refine ⟨hc, fun h => ?_, fun h => ?_, hss, hFF, fun h2 h1 => ?_, hTT⟩
        · have := hp1 h; omega
        · have := hp2 h; omega
        · rcases hFT h2 h1 with h | ⟨ha, hb⟩
          · exact Or.inl h
          · exact Or.inr ⟨by omega, by omega⟩
    | false =>
        cases hs2 : st2.is_silence with
        | true =>
            -- the low machine opens, the high machine continues
            rw [detectStep_open thr1 minLen cf lenMs false i c st1 hE1.1 hE1.2 hs1,
              detectStep_continue thr2 minLen cf lenMs i c st2 hE2.1 hE2.2 hs2]
            unfold MonoInv
            dsimp only
            have hq2 := hp2 hs2
            refine ⟨fun _ => hs2, fun _ => by omega, fun _ => by omega,
              fun _ => by omega, fun h => ?_, fun _ h1 => Bool.noConfusion h1,
              fun _ _ => ?_⟩
            · rw [hs2] at h; exact Bool.noConfusion h
            · rcases hFT hs2 hs1 with h | ⟨ha, hb⟩
              · exact Or.inl h
              · exact Or.inr ⟨by omega, by omega⟩
        | false =>
            -- both machines open at this chunk
            rw [detectStep_open thr1 minLen cf lenMs false i c st1 hE1.1 hE1.2 hs1,
              detectStep_open thr2 minLen cf lenMs false i c st2 hE2.1 hE2.2 hs2]
            unfold MonoInv
            dsimp only
            exact ⟨fun _ => rfl, fun _ => by omega, fun _ => by omega,
              fun _ => le_refl _, fun h => Bool.noConfusion h,
              fun _ h1 => Bool.noConfusion h1,
              fun _ _ => Or.inl (hFF hs2)⟩
  · -- chunk not eligible under the low threshold
    cases hs1 : st1.is_silence with
    | true =>
        -- the low machine closes; the high machine continues or closes
        have hs2 := hc hs1
        have hq1 := hp1 hs1
        have hq2 := hp2 hs2
        have hq12 := hss hs1
        by_cases hE2' : c.db < (thr2 : WithBot ℚ) ∧ c.voice = false
        · -- high machine continues, low machine closes
          rw [detectStep_close_of_notE thr1 minLen cf lenMs false i c st1 hE1 hs1,
            detectStep_continue thr2 minLen cf lenMs i c st2 hE2'.1 hE2'.2 hs2]
          by_cases hemit1 : (minLen : ℤ) ≤ ((i * 100 : ℕ) : ℤ) - (st1.silence_start : ℤ)
          · rw [if_pos hemit1]
            unfold MonoInv
            dsimp only
            simp only [removedDuration_append_single]
            refine ⟨fun h => Bool.noConfusion h, fun h => Bool.noConfusion h,
              fun _ => by omega, fun h => Bool.noConfusion h,
              fun h => Bool.noConfusion (hs2.symm.trans h),
              fun _ _ => ?_, fun _ h1 => Bool.noConfusion h1⟩
            rcases hTT hs2 hs1 with h | ⟨ha, hb⟩
            · exact Or.inr ⟨by omega, by push_cast; omega⟩
            · exact Or.inr ⟨by omega, by push_cast; omega⟩
          · rw [if_neg hemit1]
            unfold MonoInv
            dsimp only
            refine ⟨fun h => Bool.noConfusion h, fun h => Bool.noConfusion h,
              fun _ => by omega, fun h => Bool.noConfusion h,
              fun h => Bool.noConfusion (hs2.symm.trans h),
              fun _ _ => ?_, fun _ h1 => Bool.noConfusion h1⟩
            rcases hTT hs2 hs1 with h | ⟨ha, hb⟩
            · exact Or.inl h
            · exact Or.inr ⟨by omega, by omega⟩
        · -- both machines close
          rw [detectStep_close_of_notE thr1 minLen cf lenMs false i c st1 hE1 hs1,
            detectStep_close_of_notE thr2 minLen cf lenMs false i c st2 hE2' hs2]
          by_cases hemit1 : (minLen : ℤ) ≤ ((i * 100 : ℕ) : ℤ) - (st1.silence_start : ℤ)
          · have hemit2 : (minLen : ℤ) ≤ ((i * 100 : ℕ) : ℤ) - (st2.silence_start : ℤ) := by
              omega
            rw [if_pos hemit1, if_pos hemit2]
            unfold MonoInv
            dsimp only
            simp only [removedDuration_append_single]
            refine ⟨fun h => Bool.noConfusion h, fun h => Bool.noConfusion h,
              fun h => Bool.noConfusion h, fun h => Bool.noConfusion h,
              fun _ => ?_, fun h _ => Bool.noConfusion h,
              fun h _ => Bool.noConfusion h⟩
            rcases hTT hs2 hs1 with h | ⟨ha, hb⟩
            · push_cast
              omega
            · push_cast
              omega
          · by_cases hemit2 : (minLen : ℤ) ≤ ((i * 100 : ℕ) : ℤ) - (st2.silence_start : ℤ)
            · rw [if_neg hemit1, if_pos hemit2]
              unfold MonoInv
              dsimp only
              simp only [removedDuration_append_single]
              refine ⟨fun h => Bool.noConfusion h, fun h => Bool.noConfusion h,
                fun h => Bool.noConfusion h, fun h => Bool.noConfusion h,
                fun _ => ?_, fun h _ => Bool.noConfusion h,
                fun h _ => Bool.noConfusion h⟩
              rcases hTT hs2 hs1 with h | ⟨ha, hb⟩
              · push_cast
                omega
              · push_cast
                omega
            · rw [if_neg hemit1, if_neg hemit2]
              unfold MonoInv
              dsimp only
              refine ⟨fun h => Bool.noConfusion h, fun h => Bool.noConfusion h,
                fun h => Bool.noConfusion h, fun h => Bool.noConfusion h,
                fun _ => ?_, fun h _ => Bool.noConfusion h,
                fun h _ => Bool.noConfusion h⟩
              rcases hTT hs2 hs1 with h | ⟨ha, hb⟩
              · exact h
              · omega
    | false =>
        cases hs2 : st2.is_silence with
        | true =>
            -- the low machine idles; the high machine continues or closes
            have hq2 := hp2 hs2
            by_cases hE2' : c.db < (thr2 : WithBot ℚ) ∧ c.voice = false
            · rw [detectStep_idle thr1 minLen cf lenMs false i c st1 hE1 hs1,
                detectStep_continue thr2 minLen cf lenMs i c st2 hE2'.1 hE2'.2 hs2]
              refine ⟨fun h => Bool.noConfusion (hs1.symm.trans h),
                fun h => Bool.noConfusion (hs1.symm.trans h),
                fun _ => by omega,
                fun h => Bool.noConfusion (hs1.symm.trans h),
                fun h => Bool.noConfusion (hs2.symm.trans h),
                fun _ _ => ?_,
                fun _ h1 => Bool.noConfusion (hs1.symm.trans h1)⟩
              rcases hFT hs2 hs1 with h | ⟨ha, hb⟩
              · exact Or.inl h
              · exact Or.inr ⟨by omega, by omega⟩
            · rw [detectStep_idle thr1 minLen cf lenMs false i c st1 hE1 hs1,
                detectStep_close_of_notE thr2 minLen cf lenMs false i c st2 hE2' hs2]
              by_cases hemit2 : (minLen : ℤ) ≤ ((i * 100 : ℕ) : ℤ) - (st2.silence_start : ℤ)
              · rw [if_pos hemit2]
                unfold MonoInv
                dsimp only
                simp only [removedDuration_append_single]
                refine ⟨fun h => Bool.noConfusion (hs1.symm.trans h),
                  fun h => Bool.noConfusion (hs1.symm.trans h),
                  fun h => Bool.noConfusion h,
                  fun h => Bool.noConfusion (hs1.symm.trans h),
                  fun _ => ?_, fun h _ => Bool.noConfusion h,
                  fun h _ => Bool.noConfusion h⟩
                rcases hFT hs2 hs1 with h | ⟨ha, hb⟩
                · push_cast
                  omega
                · push_cast
                  omega
              · rw [if_neg hemit2]
                unfold MonoInv
                dsimp only
                refine ⟨fun h => Bool.noConfusion (hs1.symm.trans h),
                  fun h => Bool.noConfusion (hs1.symm.trans h),
                  fun h => Bool.noConfusion h,
                  fun h => Bool.noConfusion (hs1.symm.trans h),
                  fun _ => ?_, fun h _ => Bool.noConfusion h,
                  fun h _ => Bool.noConfusion h⟩
                rcases hFT hs2 hs1 with h | ⟨ha, hb⟩
                · exact h
                · omega
        | false =>
            -- the low machine idles; the high machine idles or opens
            by_cases hE2' : c.db < (thr2 : WithBot ℚ) ∧ c.voice = false
            · rw [detectStep_idle thr1 minLen cf lenMs false i c st1 hE1 hs1,
                detectStep_open thr2 minLen cf lenMs false i c st2 hE2'.1 hE2'.2 hs2]
              unfold MonoInv
              dsimp only
              exact ⟨fun h => Bool.noConfusion (hs1.symm.trans h),
                fun h => Bool.noConfusion (hs1.symm.trans h),
                fun _ => by omega,
                fun h => Bool.noConfusion (hs1.symm.trans h),
                fun h => Bool.noConfusion h,
                fun _ _ => Or.inl (hFF hs2),
                fun _ h1 => Bool.noConfusion (hs1.symm.trans h1)⟩
            · rw [detectStep_idle thr1 minLen cf lenMs false i c st1 hE1 hs1,
                detectStep_idle thr2 minLen cf lenMs false i c st2 hE2' hs2]
              exact ⟨fun h => Bool.noConfusion (hs1.symm.trans h),
                fun h => Bool.noConfusion (hs1.symm.trans h),
                fun h => Bool.noConfusion (hs2.symm.trans h),
                fun h => Bool.noConfusion (hs1.symm.trans h),
                fun _ => hFF hs2,
                fun h _ => Bool.noConfusion (hs2.symm.trans h),
                fun h _ => Bool.noConfusion (hs2.symm.trans h)⟩

/-- At the final chunk, where both machines force-close any open candidate,
the coupling invariant yields the removed-duration comparison. -/
theorem MonoInv_step_true (thr1 thr2 : ℚ)
    (minLen cf lenMs i : ℕ) (hcf : cf ≤ 50) (hx : i * 100 ≤ lenMs)
    (c : Chunk) (st1 st2 : DetectState)
    (hinv : MonoInv minLen cf lenMs i st1 st2) :
    removedDuration (detectStep thr1 minLen cf lenMs true i c st1).ranges ≤
      removedDuration (detectStep thr2 minLen cf lenMs true i c st2).ranges := by
  obtain ⟨hc, hp1, hp2, hss, hFF, hFT, hTT⟩ := hinv
  have hmle : Nat.min lenMs (i * 100 + cf) ≤ i * 100 + cf := Nat.min_le_right _ _
  have hmge : i * 100 ≤ Nat.min lenMs (i * 100 + cf) :=
    le_min hx (Nat.le_add_right _ _)
  cases hs1 : st1.is_silence with
  | true =>
      have hs2 := hc hs1
      have hq1 := hp1 hs1
      have hq2 := hp2 hs2
      have hq12 := hss hs1
      rw [detectStep_close_of_last thr1 minLen cf lenMs i c st1 hs1,
        detectStep_close_of_last thr2 minLen cf lenMs i c st2 hs2]
      by_cases hemit1 : (minLen : ℤ) ≤ ((i * 100 : ℕ) : ℤ) - (st1.silence_start : ℤ)
      · have hemit2 : (minLen : ℤ) ≤ ((i * 100 : ℕ) : ℤ) - (st2.silence_start : ℤ) := by
          omega
        rw [if_pos hemit1, if_pos hemit2]
        dsimp only
        simp only [removedDuration_append_single]
        rcases hTT hs2 hs1 with h | ⟨ha, hb⟩ <;> omega
      · by_cases hemit2 : (minLen : ℤ) ≤ ((i * 100 : ℕ) : ℤ) - (st2.silence_start : ℤ)
        · rw [if_neg hemit1, if_pos hemit2]
          dsimp only
          simp only [removedDuration_append_single]
          rcases hTT hs2 hs1 with h | ⟨ha, hb⟩ <;> omega
        · rw [if_neg hemit1, if_neg hemit2]
          dsimp only
          rcases hTT hs2 hs1 with h | ⟨ha, hb⟩ <;> omega
  | false =>
      rw [detectStep_ranges_of_not_silence thr1 minLen cf lenMs true i c st1 hs1]
      cases hs2 : st2.is_silence with
      | false =>
          rw [detectStep_ranges_of_not_silence thr2 minLen cf lenMs true i c st2 hs2]
          have := hFF hs2
          omega
      | true =>
          have hq2 := hp2 hs2
          rw [detectStep_close_of_last thr2 minLen cf lenMs i c st2 hs2]
          by_cases hemit2 : (minLen : ℤ) ≤ ((i * 100 : ℕ) : ℤ) - (st2.silence_start : ℤ)
          · rw [if_pos hemit2]
            dsimp only
            simp only [removedDuration_append_single]
            rcases hFT hs2 hs1 with h | ⟨ha, hb⟩ <;> omega
          · rw [if_neg hemit2]
            dsimp only
            rcases hFT hs2 hs1 with h | ⟨ha, hb⟩ <;> omega

/-- Threshold monotonicity of the detector loop: from coupled states, the
lower-threshold run never removes more than the higher-threshold run. -/
theorem detectGo_mono (thr1 thr2 : ℚ) (hthr : thr1 ≤ thr2)
    (minLen cf lenMs : ℕ) (hcf : cf ≤ 50) :
    ∀ (cs : List Chunk), cs ≠ [] → ∀ (i : ℕ) (st1 st2 : DetectState),
      100 * (i + cs.length) ≤ lenMs + 100 →
      MonoInv minLen cf lenMs i st1 st2 →
      removedDuration (detectGo thr1 minLen cf lenMs cs i st1).ranges ≤
        removedDuration (detectGo thr2 minLen cf lenMs cs i st2).ranges := by
  intro cs
  induction cs with
  | nil => intro h; exact absurd rfl h
  | cons c cs ih =>
      intro _ i st1 st2 hlen hinv
      simp only [List.length_cons] at hlen
      rcases eq_or_ne cs [] with rfl | hne
      · simp only [detectGo, List.isEmpty_nil]
        have hx : i * 100 ≤ lenMs := by omega
        exact MonoInv_step_true thr1 thr2 minLen cf lenMs i hcf hx c st1 st2 hinv
      · have hlpos : 0 < cs.length := List.length_pos.mpr hne
        have hx : i * 100 ≤ lenMs := by omega
        simp only [detectGo]
        rw [List.isEmpty_eq_false.mpr hne]
        exact ih hne (i + 1) _ _ (by omega)
          (MonoInv_step_false thr1 thr2 hthr minLen cf lenMs i hcf hx c st1 st2 hinv)

/-- C4, counterexample: total removed duration is not monotone in the
threshold.  With `crossfade_len = 80` and `min_silence_len = 500` on a
14-chunk buffer with two 500 ms silent spans separated by a single -25 dB
chunk, threshold -30 emits two ranges totalling 1320 ms of removal while
the higher threshold -20 merges them into one range totalling only
1260 ms: raising the threshold decreased the removed duration. -/
theorem C4_counterexample :
    (-30 : ℚ) < -20 ∧
    removedDuration (detectSilence (-30) 500 80 1400
      ([dbChunk 0] ++ List.replicate 5 (dbChunk (-100)) ++ [dbChunk (-25)] ++
        List.replicate 5 (dbChunk (-100)) ++ [dbChunk 0, dbChunk 0])) = 1320 ∧
    removedDuration (detectSilence (-20) 500 80 1400
      ([dbChunk 0] ++ List.replicate 5 (dbChunk (-100)) ++ [dbChunk (-25)] ++
        List.replicate 5 (dbChunk (-100)) ++ [dbChunk 0, dbChunk 0])) = 1260 := by
  refine ⟨by norm_num, by decide, by decide⟩

/-- C4, amended: for a fixed buffer and fixed other parameters, the total
removed duration is monotone in the threshold whenever the crossfade margin
is at most 50 ms (half the 100 ms chunk length, satisfied by the default
50 ms) — raising the threshold never decreases the removed duration.  The
length hypothesis `100 * numChunks ≤ trackLengthMs + 100` holds for every
real buffer, whose chunk count is `ceil(trackLengthMs / 100)`.  Without the
margin bound the property fails (see the counterexample, which uses an
80 ms crossfade). -/
theorem C4_threshold_monotone (thr1 thr2 : ℚ) (minLen cf lenMs : ℕ)
    (chunks : List Chunk) (hthr : thr1 ≤ thr2) (hcf : cf ≤ 50)
    (hlen : 100 * chunks.length ≤ lenMs + 100) :
    removedDuration (detectSilence thr1 minLen cf lenMs chunks) ≤
      removedDuration (detectSilence thr2 minLen cf lenMs chunks) := by
  rcases eq_or_ne chunks [] with rfl | hne
  · exact le_refl _
  · unfold detectSilence
    refine detectGo_mono thr1 thr2 hthr minLen cf lenMs hcf chunks hne 0
      initState initState (by simpa using hlen) ?_
    unfold MonoInv initState
    dsimp only
    exact ⟨fun h => Bool.noConfusion h, fun h => Bool.noConfusion h,
      fun h => Bool.noConfusion h, fun h => Bool.noConfusion h,
      fun _ => le_refl _, fun h _ => Bool.noConfusion h,
      fun h _ => Bool.noConfusion h⟩

/-- C4, witness for `C4_threshold_monotone`: on the 700 ms buffer with one
500 ms silent span and the default 50 ms crossfade, removal at threshold
-30 is at most removal at threshold -20. -/
theorem C4_witness :
    removedDuration (detectSilence (-30) 500 50 700
      ([loudChunk] ++ List.replicate 5 silentChunk ++ [loudChunk])) ≤
      removedDuration (detectSilence (-20) 500 50 700
        ([loudChunk] ++ List.replicate 5 silentChunk ++ [loudChunk])) :=
  C4_threshold_monotone (-30) (-20) 500 50 700
    ([loudChunk] ++ List.replicate 5 silentChunk ++ [loudChunk])
    (by norm_num) (by norm_num) (by decide)

/-- C3, witness for `C3_last_chunk_closure`: a candidate open since 100 ms is
force-closed when the last chunk (index 7) is processed, and its 600 ms
pre-margin span is emitted, expanded by the 50 ms margin. -/
theorem C3_witness :
    (detectStep (-20) 500 50 1000 true 7 silentChunk ⟨[], true, 100⟩).is_silence
      = false ∧
    (detectStep (-20) 500 50 1000 true 7 silentChunk ⟨[], true, 100⟩).ranges
      = [(50, 750)] := by
  have h := (C3_last_chunk_closure (-20) 500 50 1000 7 silentChunk
    ⟨[], true, 100⟩).1 rfl
  refine ⟨h.1, ?_⟩
  rw [h.2]
  norm_num

end AudioProc
